import Mathlib

/-!
Verification of the Smith-Waterman alignment engine of this repository:
the sequential aligner (align/smith_waterman.go), the wavefront parallel
aligner and the concurrent batch aligner (align/parallel_smith_waterman.go).

Sequences are embedded as `List Char` (Go strings of DNA symbols), scores
as `Int` (Go `int`; all values involved are tiny, so overflow is not in
play).  The dynamic-programming matrix of the sequential aligner is
embedded as the function `cell`, the table of values the Go fill loop
stores in `matrix[i][j]`; the materialized `List (List Int)` returned in
the result record is `scoreMatrix`.  The parallel aligner's shared matrix
is embedded operationally: goroutine interleavings are an explicit
schedule parameter, because the Go code launches one goroutine per
anti-diagonal and synchronizes only once, after all of them have been
launched.
-/

namespace Align

/-- Scoring parameters (smith_waterman.go lines 4-8). -/
def MatchScore : Int := 2

/-- Penalty for a mismatched base (smith_waterman.go line 6). -/
def MismatchScore : Int := -1

/-- Penalty for an insertion or deletion (smith_waterman.go line 7). -/
def GapPenalty : Int := -2

/-- smithMax (smith_waterman.go lines 124-132): maximum of a nonempty list
of ints, scanning with a strictly-greater update.  The Go function is
variadic and always called with four arguments; the empty-list case (which
would panic in Go) is given the junk value 0. -/
def smithMax : List Int → Int
  | [] => 0
  | v :: vs => vs.foldl (fun acc x => if x > acc then x else acc) v

/-- The match-or-mismatch score for position (i+1, j+1) of the fill
(smith_waterman.go lines 42-45): `MatchScore` when `query[i] == reference[j]`,
else `MismatchScore`.  Out-of-range indices take the getD default; the fill
and the traceback only consult in-range positions. -/
def matchAt (q r : List Char) (i j : Nat) : Int :=
  if q.getD i 'A' = r.getD j 'A' then MatchScore else MismatchScore

/-- Fuel-indexed form of the score-matrix recurrence from the fill loop of
SmithWaterman (smith_waterman.go lines 39-61): row 0 and column 0 stay at
their initial value 0, and an interior value is
`smithMax [0, diag + match, up + GapPenalty, left + GapPenalty]`
(lines 48-53).  The fuel argument makes the recursion structural; every
recursive call strictly decreases `i + j`, so any fuel `≥ i + j` computes
the matrix value (`cellGo_irrel`). -/
def cellGo (q r : List Char) : Nat → Nat → Nat → Int
  | _, 0, _ => 0
  | _, _ + 1, 0 => 0
  | 0, _ + 1, _ + 1 => 0
  | f + 1, i + 1, j + 1 =>
      smithMax [0, cellGo q r f i j + matchAt q r i j,
        cellGo q r f i (j + 1) + GapPenalty,
        cellGo q r f (i + 1) j + GapPenalty]

/-- `cell q r i j` is the value the sequential fill loop stores in
`matrix[i][j]` (smith_waterman.go lines 29-61), defined for all indices by
the same recurrence (the Go matrix only materializes indices
i ≤ |query|, j ≤ |reference|). -/
def cell (q r : List Char) (i j : Nat) : Int :=
  cellGo q r (i + j) i j

/-- The fuel argument of `cellGo` is irrelevant once it is at least `i + j`. -/
theorem cellGo_irrel (q r : List Char) :
    ∀ f₁ : Nat, ∀ f₂ i j : Nat, i + j ≤ f₁ → i + j ≤ f₂ →
      cellGo q r f₁ i j = cellGo q r f₂ i j := by
  intro f₁
  induction f₁ with
  | zero =>
    intro f₂ i j h₁ _
    match i, j with
    | 0, _ => cases f₂ <;> rfl
    | _ + 1, 0 => cases f₂ <;> rfl
    | i + 1, j + 1 => omega
  | succ f ih =>
    intro f₂ i j h₁ h₂
    match i, j with
    | 0, _ => cases f₂ <;> rfl
    | _ + 1, 0 => cases f₂ <;> rfl
    | i + 1, j + 1 =>
      match f₂, h₂ with
      | f₂ + 1, h₂ =>
        show smithMax _ = smithMax _
        rw [ih f₂ i j (by omega) (by omega),
          ih f₂ i (j + 1) (by omega) (by omega),
          ih f₂ (i + 1) j (by omega) (by omega)]

/-- Base case: row 0 of the matrix is 0. -/
theorem cell_zero_left (q r : List Char) (j : Nat) : cell q r 0 j = 0 := by
  cases j <;> rfl

/-- Base case: column 0 of the matrix is 0. -/
theorem cell_zero_right (q r : List Char) (i : Nat) : cell q r i 0 = 0 := by
  cases i <;> rfl

/-- Unfolding equation for the interior case of `cellGo`. -/
theorem cellGo_succ (q r : List Char) (f i j : Nat) :
    cellGo q r (f + 1) (i + 1) (j + 1) =
      smithMax [0, cellGo q r f i j + matchAt q r i j,
        cellGo q r f i (j + 1) + GapPenalty,
        cellGo q r f (i + 1) j + GapPenalty] := rfl

/-- The interior recurrence of the fill (smith_waterman.go lines 48-53),
stated for `cell`. -/
theorem cell_succ (q r : List Char) (i j : Nat) :
    cell q r (i + 1) (j + 1) =
      smithMax [0, cell q r i j + matchAt q r i j,
        cell q r i (j + 1) + GapPenalty,
        cell q r (i + 1) j + GapPenalty] := by
  have h1 : cell q r (i + 1) (j + 1) = cellGo q r (i + j + 1 + 1) (i + 1) (j + 1) := by
    unfold cell
    exact cellGo_irrel q r _ _ _ _ (by omega) (by omega)
  rw [h1, cellGo_succ]
  unfold cell
  rw [cellGo_irrel q r (i + j + 1) (i + j) i j (by omega) (by omega),
    cellGo_irrel q r (i + j + 1) (i + (j + 1)) i (j + 1) (by omega) (by omega),
    cellGo_irrel q r (i + j + 1) (i + 1 + j) (i + 1) j (by omega) (by omega)]

/-- Evaluation of `smithMax` on the four-element lists the fill uses. -/
theorem smithMax_four (a b c d : Int) :
    smithMax [a, b, c, d] = max (max (max a b) c) d := by
  have hstep : ∀ x y : Int, (if y > x then y else x) = max x y := by
    intro x y
    rcases le_total x y with h | h
    · rcases lt_or_eq_of_le h with h' | h'
      · simp [h', max_eq_right h]
      · simp [h', le_refl]
    · simp [not_lt.mpr h, max_eq_left h]
  simp only [smithMax, List.foldl]
  rw [hstep a b, hstep (max a b) c, hstep (max (max a b) c) d]

/-- The running maximum tracked by the fill loop: `maxScore`, `maxRow`,
`maxCol` of smith_waterman.go lines 35-36, updated at lines 56-59. -/
structure MaxState where
  maxScore : Int
  maxRow : Nat
  maxCol : Nat
deriving DecidableEq

/-- One step of the maximum tracking (smith_waterman.go lines 56-59): the
running record is replaced only on a strictly-greater comparison. -/
def fillStep (q r : List Char) (s : MaxState) (i j : Nat) : MaxState :=
  if cell q r i j > s.maxScore then ⟨cell q r i j, i, j⟩ else s

/-- The row-major fill scan of SmithWaterman (smith_waterman.go lines
39-61): i runs 1..|query| outer, j runs 1..|reference| inner, and the
maximum tracking of lines 56-59 folds along.  The matrix values themselves
are `cell`. -/
def fillScan (q r : List Char) : MaxState :=
  (List.range q.length).foldl
    (fun s i0 => (List.range r.length).foldl
      (fun s j0 => fillStep q r s (i0 + 1) (j0 + 1)) s)
    ⟨0, 0, 0⟩

/-- The interior matrix coordinates (i, j), 1 ≤ i ≤ m, 1 ≤ j ≤ n, listed in
the row-major order in which the fill loop visits them. -/
def rowMajor (n : Nat) : Nat → List (Nat × Nat)
  | 0 => []
  | m + 1 => rowMajor n m ++ (List.range n).map (fun j0 => (m + 1, j0 + 1))

/-- Traceback loop of smith_waterman.go lines 85-121, fuel-indexed: the
loop runs while `row > 0 && col > 0 && matrix[row][col] > 0`, preferring
the diagonal term, then the up term, then the left term (lines 99-113),
with a safeguard break when no term matches (lines 114-117).  Each
iteration prepends to the aligned strings, which here becomes appending
after the recursive call.  Every iteration decreases `row + col`, so fuel
`row + col` computes the loop exactly (`tracebackGo_irrel`).  The matrix
argument is the function of cell values the caller fills. -/
def tracebackGo (M : Nat → Nat → Int) (q r : List Char) :
    Nat → Nat → Nat → List Char × List Char
  | 0, _, _ => ([], [])
  | _ + 1, 0, _ => ([], [])
  | _ + 1, _ + 1, 0 => ([], [])
  | f + 1, r0 + 1, c0 + 1 =>
    if M (r0 + 1) (c0 + 1) > 0 then
      if M (r0 + 1) (c0 + 1) = M r0 c0 + matchAt q r r0 c0 then
        let p := tracebackGo M q r f r0 c0
        (p.1 ++ [q.getD r0 'A'], p.2 ++ [r.getD c0 'A'])
      else if M (r0 + 1) (c0 + 1) = M r0 (c0 + 1) + GapPenalty then
        let p := tracebackGo M q r f r0 (c0 + 1)
        (p.1 ++ [q.getD r0 'A'], p.2 ++ ['-'])
      else if M (r0 + 1) (c0 + 1) = M (r0 + 1) c0 + GapPenalty then
        let p := tracebackGo M q r f (r0 + 1) c0
        (p.1 ++ ['-'], p.2 ++ [r.getD c0 'A'])
      else ([], [])
    else ([], [])

/-- traceback (smith_waterman.go lines 85-121), entered at the running
maximum's coordinates. -/
def traceback (M : Nat → Nat → Int) (q r : List Char) (row col : Nat) :
    List Char × List Char :=
  tracebackGo M q r (row + col) row col

/-- AlignmentResult (smith_waterman.go lines 11-16). -/
structure AlignmentResult where
  ScoreMatrix : List (List Int)
  MaxScore : Int
  AlignedQuery : List Char
  AlignedRef : List Char
deriving DecidableEq

/-- The materialized (|query|+1) × (|reference|+1) score matrix the
sequential aligner allocates and fills (smith_waterman.go lines 30-33 and
39-61). -/
def scoreMatrix (q r : List Char) : List (List Int) :=
  (List.range (q.length + 1)).map
    (fun i => (List.range (r.length + 1)).map (fun j => cell q r i j))

/-- SmithWaterman (smith_waterman.go lines 26-72): fill the matrix, track
the running maximum in row-major order, then trace back from the maximum's
coordinates. -/
def SmithWaterman (q r : List Char) : AlignmentResult :=
  let s := fillScan q r
  let ab := traceback (cell q r) q r s.maxRow s.maxCol
  ⟨scoreMatrix q r, s.maxScore, ab.1, ab.2⟩

/-- ParallelAlignmentResult (parallel_smith_waterman.go lines 9-16). -/
structure ParallelAlignmentResult where
  ScoreMatrix : List (List Int)
  MaxScore : Int
  MaxRow : Nat
  MaxCol : Nat
  AlignedQuery : List Char
  AlignedRef : List Char
deriving DecidableEq

/-- Read `mat[i][j]` of a materialized matrix; out-of-range reads give the
zero an allocated-and-unwritten Go int slice holds. -/
def mread (mat : List (List Int)) (i j : Nat) : Int :=
  (mat.getD i []).getD j 0

/-- Write `mat[i][j] = v`; out-of-range writes are dropped (never exercised
by the modelled code, which writes only in-range cells). -/
def mwrite (mat : List (List Int)) (i j : Nat) (v : Int) : List (List Int) :=
  mat.set i ((mat.getD i []).set j v)

/-- The freshly allocated zero matrix of parallel_smith_waterman.go lines
50-53. -/
def initMatrix (m n : Nat) : List (List Int) :=
  List.replicate (m + 1) (List.replicate (n + 1) (0 : Int))

/-- Shared state of the parallel fill: the score matrix plus the
mutex-protected running maximum (parallel_smith_waterman.go lines 55-58). -/
structure FillState where
  mat : List (List Int)
  maxScore : Int
  maxRow : Nat
  maxCol : Nat
deriving DecidableEq

/-- The recurrence value lines 80-92 of parallel_smith_waterman.go compute
for cell (i, j) from the current contents of the shared matrix. -/
def cellValue (q r : List Char) (mat : List (List Int)) (i j : Nat) : Int :=
  smithMax [0, mread mat (i - 1) (j - 1) + matchAt q r (i - 1) (j - 1),
    mread mat (i - 1) j + GapPenalty,
    mread mat i (j - 1) + GapPenalty]

/-- One cell computation of the wave goroutine body
(parallel_smith_waterman.go lines 80-102): compute the recurrence from the
current contents of the shared matrix, store the cell, and update the
running maximum under the mutex on a strictly-greater comparison (the
update is attempted only when the stored value is positive, line 95). -/
def execCell (q r : List Char) (st : FillState) (p : Nat × Nat) : FillState :=
  if cellValue q r st.mat p.1 p.2 > 0 then
    if cellValue q r st.mat p.1 p.2 > st.maxScore then
      ⟨mwrite st.mat p.1 p.2 (cellValue q r st.mat p.1 p.2),
        cellValue q r st.mat p.1 p.2, p.1, p.2⟩
    else
      ⟨mwrite st.mat p.1 p.2 (cellValue q r st.mat p.1 p.2),
        st.maxScore, st.maxRow, st.maxCol⟩
  else
    ⟨mwrite st.mat p.1 p.2 (cellValue q r st.mat p.1 p.2),
      st.maxScore, st.maxRow, st.maxCol⟩

/-- The cells the goroutine for anti-diagonal `d` processes, in its
iteration order (parallel_smith_waterman.go lines 74-78): i = 1.., with
i ≤ m and i < d, j = d - i, skipping j < 1 or j > n. -/
def waveCells (m n d : Nat) : List (Nat × Nat) :=
  (List.range m).filterMap
    (fun i0 =>
      if i0 + 1 < d ∧ 1 ≤ d - (i0 + 1) ∧ d - (i0 + 1) ≤ n then
        some (i0 + 1, d - (i0 + 1))
      else none)

/-- Run the goroutine for anti-diagonal `d` to completion from shared state
`st` (the body of the closure at parallel_smith_waterman.go lines 70-104). -/
def execWave (q r : List Char) (st : FillState) (d : Nat) : FillState :=
  (waveCells q.length r.length d).foldl (execCell q r) st

/-- The anti-diagonals 2 .. m+n for which goroutines are launched
(parallel_smith_waterman.go line 68). -/
def waveRange (m n : Nat) : List Nat :=
  List.range' 2 (m + n - 1)

/-- The parallel fill under an explicit goroutine schedule: `order` lists
the anti-diagonals in the order the scheduler runs their goroutines.  The
launch loop (parallel_smith_waterman.go lines 68-105) starts one goroutine
per anti-diagonal and the sole synchronization is the single `wg.Wait()`
after the loop (line 108); no barrier orders one wave's goroutine before
another's, so every permutation of the waves is a schedulable execution.
This embedding runs each wave's cell loop atomically, which suffices to
express both the intended in-order execution and racy reorderings. -/
def parallelFill (q r : List Char) (order : List Nat) : FillState :=
  order.foldl (execWave q r) ⟨initMatrix q.length r.length, 0, 0, 0⟩

/-- A schedule the code's synchronization permits: some order of the
launched wave goroutines (parallel_smith_waterman.go lines 68-108 impose
no inter-wave ordering). -/
def PermittedOrder (q r : List Char) (order : List Nat) : Prop :=
  order.Perm (waveRange q.length r.length)

/-- parallelTraceback loop (parallel_smith_waterman.go lines 136-172),
fuel-indexed exactly like `tracebackGo`; the Go function's body is
character-for-character the body of `traceback`. -/
def parallelTracebackGo (M : Nat → Nat → Int) (q r : List Char) :
    Nat → Nat → Nat → List Char × List Char
  | 0, _, _ => ([], [])
  | _ + 1, 0, _ => ([], [])
  | _ + 1, _ + 1, 0 => ([], [])
  | f + 1, r0 + 1, c0 + 1 =>
    if M (r0 + 1) (c0 + 1) > 0 then
      if M (r0 + 1) (c0 + 1) = M r0 c0 + matchAt q r r0 c0 then
        let p := parallelTracebackGo M q r f r0 c0
        (p.1 ++ [q.getD r0 'A'], p.2 ++ [r.getD c0 'A'])
      else if M (r0 + 1) (c0 + 1) = M r0 (c0 + 1) + GapPenalty then
        let p := parallelTracebackGo M q r f r0 (c0 + 1)
        (p.1 ++ [q.getD r0 'A'], p.2 ++ ['-'])
      else if M (r0 + 1) (c0 + 1) = M (r0 + 1) c0 + GapPenalty then
        let p := parallelTracebackGo M q r f (r0 + 1) c0
        (p.1 ++ ['-'], p.2 ++ [r.getD c0 'A'])
      else ([], [])
    else ([], [])

/-- parallelTraceback (parallel_smith_waterman.go lines 136-172). -/
def parallelTraceback (M : Nat → Nat → Int) (q r : List Char) (row col : Nat) :
    List Char × List Char :=
  parallelTracebackGo M q r (row + col) row col

/-- ParallelSmithWaterman (parallel_smith_waterman.go lines 28-121).  The
`numWorkers` argument is normalized at lines 32-34 but never read again:
neither the small-input fallback (lines 37-47) nor the wave launch loop
(lines 68-105) consults it, so it is simply ignored here.  `order` is the
goroutine schedule of the wave sweep (see `parallelFill`). -/
def ParallelSmithWaterman (q r : List Char) (numWorkers : Int)
    (order : List Nat) : ParallelAlignmentResult :=
  if q.length < 50 ∨ r.length < 50 then
    let res := SmithWaterman q r
    ⟨res.ScoreMatrix, res.MaxScore, 0, 0, res.AlignedQuery, res.AlignedRef⟩
  else
    let st := parallelFill q r order
    let ab := parallelTraceback (mread st.mat) q r st.maxRow st.maxCol
    ⟨st.mat, st.maxScore, st.maxRow, st.maxCol, ab.1, ab.2⟩

/-- The Go zero value of AlignmentResult, the content of the freshly made
results slice of parallel_smith_waterman.go line 196. -/
def emptyAlignmentResult : AlignmentResult := ⟨[], 0, [], []⟩

/-- ConcurrentSmithWatermanBatch (parallel_smith_waterman.go lines
184-219): one sequential alignment per reference, each goroutine writing
exactly the slot of its own index into the pre-sized results slice.
`order` lists the indices in the order their goroutines' writes land;
since slot `index` is only ever written the value
`SmithWaterman query references[index]`, which depends on nothing shared,
any completion order is modelled by folding the writes in that order.
`numWorkers` (normalized and clamped at lines 186-193) only sizes the
semaphore bounding in-flight goroutines; it decides no written value. -/
def ConcurrentSmithWatermanBatch (q : List Char) (refs : List (List Char))
    (numWorkers : Int) (order : List Nat) : List AlignmentResult :=
  order.foldl
    (fun acc idx => acc.set idx (SmithWaterman q (refs.getD idx [])))
    (List.replicate refs.length emptyAlignmentResult)

/-! ### Basic bounds on the score matrix -/

/-- matchAt on a sequence against itself is always the match reward. -/
theorem matchAt_self (S : List Char) (i : Nat) : matchAt S S i i = MatchScore := by
  simp [matchAt]

/-- matchAt is at most the match reward. -/
theorem matchAt_le (q r : List Char) (i j : Nat) : matchAt q r i j ≤ MatchScore := by
  unfold matchAt
  split
  · exact le_refl _
  · decide

/-- matchAt is at least the mismatch penalty. -/
theorem matchAt_ge (q r : List Char) (i j : Nat) : MismatchScore ≤ matchAt q r i j := by
  unfold matchAt
  split
  · decide
  · exact le_refl _

/-- Every matrix value is non-negative: the recurrence takes a maximum with 0. -/
theorem cellGo_nonneg (q r : List Char) :
    ∀ f i j : Nat, 0 ≤ cellGo q r f i j := by
  intro f
  induction f with
  | zero =>
    intro i j
    match i, j with
    | 0, _ => exact le_refl 0
    | _ + 1, 0 => exact le_refl 0
    | _ + 1, _ + 1 => exact le_refl 0
  | succ f ih =>
    intro i j
    match i, j with
    | 0, _ => exact le_refl 0
    | _ + 1, 0 => exact le_refl 0
    | i + 1, j + 1 =>
      rw [cellGo_succ, smithMax_four]
      exact le_trans (le_trans (le_max_left 0 _) (le_max_left _ _)) (le_max_left _ _)

/-- Every matrix value is non-negative. -/
theorem cell_nonneg (q r : List Char) (i j : Nat) : 0 ≤ cell q r i j :=
  cellGo_nonneg q r (i + j) i j

/-- Each matrix value is at most twice the smaller coordinate: a path can
collect at most `min i j` match rewards. -/
theorem cellGo_le (q r : List Char) :
    ∀ f i j : Nat, cellGo q r f i j ≤ 2 * ((min i j : Nat) : Int) := by
  intro f
  induction f with
  | zero =>
    intro i j
    match i, j with
    | 0, j' =>
      have h0 : cellGo q r 0 0 j' = 0 := rfl
      rw [h0]; positivity
    | i + 1, 0 =>
      have h0 : cellGo q r 0 (i + 1) 0 = 0 := rfl
      rw [h0]; positivity
    | i + 1, j + 1 =>
      have h0 : cellGo q r 0 (i + 1) (j + 1) = 0 := rfl
      rw [h0]; positivity
  | succ f ih =>
    intro i j
    match i, j with
    | 0, j' =>
      have h0 : cellGo q r (f + 1) 0 j' = 0 := rfl
      rw [h0]; positivity
    | i + 1, 0 =>
      have h0 : cellGo q r (f + 1) (i + 1) 0 = 0 := rfl
      rw [h0]; positivity
    | i + 1, j + 1 =>
      rw [cellGo_succ, smithMax_four]
      have hmin : min (i + 1) (j + 1) = min i j + 1 := Nat.succ_min_succ i j
      have h1 : min i (j + 1) ≤ min (i + 1) (j + 1) :=
        min_le_min (Nat.le_succ i) (le_refl _)
      have h2 : min (i + 1) j ≤ min (i + 1) (j + 1) :=
        min_le_min (le_refl _) (Nat.le_succ j)
      have hd := ih i j
      have hu := ih i (j + 1)
      have hl := ih (i + 1) j
      have hm := matchAt_le q r i j
      apply max_le (max_le (max_le _ _) _) _
      · positivity
      · have : (MatchScore : Int) = 2 := rfl
        omega
      · have : (GapPenalty : Int) = -2 := rfl
        omega
      · have : (GapPenalty : Int) = -2 := rfl
        omega

/-- Each matrix value is at most twice the smaller coordinate. -/
theorem cell_le (q r : List Char) (i j : Nat) :
    cell q r i j ≤ 2 * ((min i j : Nat) : Int) :=
  cellGo_le q r (i + j) i j

/-- getD over a map of a range evaluates pointwise. -/
theorem getD_map_range {α : Type} (k : Nat) (f : Nat → α) (d : α) (i : Nat) :
    ((List.range k).map f).getD i d = if i < k then f i else d := by
  by_cases h : i < k
  · rw [List.getD_eq_getElem _ _ (by simpa using h), List.getElem_map,
      List.getElem_range, if_pos h]
  · rw [List.getD_eq_default _ _ (by simpa using Nat.le_of_not_lt h), if_neg h]

/-- Reading the materialized sequential matrix: the `cell` value in range,
0 outside. -/
theorem mread_scoreMatrix (q r : List Char) (i j : Nat) :
    mread (scoreMatrix q r) i j =
      if i ≤ q.length ∧ j ≤ r.length then cell q r i j else 0 := by
  unfold mread scoreMatrix
  rw [getD_map_range]
  by_cases hi : i < q.length + 1
  · rw [if_pos hi, getD_map_range]
    by_cases hj : j < r.length + 1
    · rw [if_pos hj, if_pos (by omega)]
    · rw [if_neg hj, if_neg (by omega)]
  · rw [if_neg hi]
    rw [if_neg (by omega)]
    rfl

/-! ### The fill scan as a single fold, and the first-maximum property -/

/-- The step of the maximum-tracking fold, on coordinate pairs. -/
def fillStepP (q r : List Char) (s : MaxState) (p : Nat × Nat) : MaxState :=
  fillStep q r s p.1 p.2

/-- Unfolding equation for `rowMajor`. -/
theorem rowMajor_succ (n m : Nat) :
    rowMajor n (m + 1) =
      rowMajor n m ++ (List.range n).map (fun j0 => (m + 1, j0 + 1)) := rfl

/-- The nested fill loops are the fold of `fillStepP` over the row-major
coordinate list. -/
theorem fillScan_eq_foldl (q r : List Char) :
    fillScan q r = (rowMajor r.length q.length).foldl (fillStepP q r) ⟨0, 0, 0⟩ := by
  unfold fillScan
  generalize (⟨0, 0, 0⟩ : MaxState) = s0
  induction q.length generalizing s0 with
  | zero => rfl
  | succ m ih =>
    rw [List.range_succ, List.foldl_append, ih, rowMajor_succ,
      List.foldl_append, List.foldl_map]
    rfl

/-- Coordinates listed by `rowMajor`. -/
theorem mem_rowMajor (n m : Nat) (p : Nat × Nat) :
    p ∈ rowMajor n m ↔ 1 ≤ p.1 ∧ p.1 ≤ m ∧ 1 ≤ p.2 ∧ p.2 ≤ n := by
  induction m with
  | zero => simp [rowMajor]; omega
  | succ m ih =>
    unfold rowMajor
    rw [List.mem_append, ih, List.mem_map]
    constructor
    · rintro (h | ⟨j0, hj0, rfl⟩)
      · omega
      · simp only [List.mem_range] at hj0
        simp
        omega
    · rintro ⟨h1, h2, h3, h4⟩
      rcases Nat.lt_or_ge p.1 (m + 1) with h | h
      · exact Or.inl (by omega)
      · right
        refine ⟨p.2 - 1, by simp only [List.mem_range]; omega, ?_⟩
        rcases p with ⟨p1, p2⟩
        simp only at h1 h2 h3 h4 h
        show (m + 1, p2 - 1 + 1) = (p1, p2)
        rw [Prod.mk.injEq]
        omega

/-- The row-major strict order on coordinates. -/
def rmLt (a b : Nat × Nat) : Prop :=
  a.1 < b.1 ∨ (a.1 = b.1 ∧ a.2 < b.2)

/-- The `rowMajor` list is strictly increasing in row-major order. -/
theorem rowMajor_pairwise (n m : Nat) : List.Pairwise rmLt (rowMajor n m) := by
  induction m with
  | zero => exact List.Pairwise.nil
  | succ m ih =>
    unfold rowMajor
    rw [List.pairwise_append]
    refine ⟨ih, ?_, ?_⟩
    · rw [List.pairwise_map]
      have : List.Pairwise (· < ·) (List.range n) := List.pairwise_lt_range n
      exact this.imp (fun h => Or.inr ⟨rfl, by omega⟩)
    · intro a ha b hb
      rw [mem_rowMajor] at ha
      rcases List.mem_map.mp hb with ⟨j0, _, rfl⟩
      exact Or.inl (by omega)

/-- Monotonicity and domination of the strictly-greater maximum fold: the
final record dominates the initial one and the value of every visited
coordinate. -/
theorem foldl_fillStep_le (q r : List Char) :
    ∀ (l : List (Nat × Nat)) (s : MaxState),
      s.maxScore ≤ (l.foldl (fillStepP q r) s).maxScore ∧
      ∀ p ∈ l, cell q r p.1 p.2 ≤ (l.foldl (fillStepP q r) s).maxScore := by
  intro l
  induction l with
  | nil => exact fun s => ⟨le_refl _, by simp⟩
  | cons a l ih =>
    intro s
    have hstep : s.maxScore ≤ (fillStepP q r s a).maxScore ∧
        cell q r a.1 a.2 ≤ (fillStepP q r s a).maxScore := by
      unfold fillStepP fillStep
      split
      · exact ⟨by simp; omega, le_refl _⟩
      · exact ⟨le_refl _, by omega⟩
    refine ⟨le_trans hstep.1 (ih (fillStepP q r s a)).1, ?_⟩
    intro p hp
    rcases List.mem_cons.mp hp with h | hp
    · rw [h]
      exact le_trans hstep.2 (ih (fillStepP q r s a)).1
    · exact (ih (fillStepP q r s a)).2 p hp

/-- The strictly-greater maximum fold selects the first coordinate whose
value strictly exceeds everything before it (and the initial record):
either the record is never replaced, or it comes from the first coordinate
attaining the final maximum. -/
theorem foldl_fillStep_first (q r : List Char) :
    ∀ (l : List (Nat × Nat)) (s : MaxState),
      (l.foldl (fillStepP q r) s = s ∧ ∀ p ∈ l, cell q r p.1 p.2 ≤ s.maxScore) ∨
      (∃ l₁ p l₂, l = l₁ ++ p :: l₂ ∧
        l.foldl (fillStepP q r) s = ⟨cell q r p.1 p.2, p.1, p.2⟩ ∧
        s.maxScore < cell q r p.1 p.2 ∧
        ∀ y ∈ l₁, cell q r y.1 y.2 < cell q r p.1 p.2) := by
  intro l
  induction l with
  | nil => exact fun s => Or.inl ⟨rfl, by simp⟩
  | cons a l ih =>
    intro s
    by_cases h : cell q r a.1 a.2 > s.maxScore
    · have hstep : fillStepP q r s a = ⟨cell q r a.1 a.2, a.1, a.2⟩ := by
        unfold fillStepP fillStep
        rw [if_pos h]
      rcases ih (fillStepP q r s a) with ⟨heq, hle⟩ | ⟨l₁, p, l₂, hsplit, heq, hlt, hall⟩
      · refine Or.inr ⟨[], a, l, rfl, ?_, h, by simp⟩
        show List.foldl _ (fillStepP q r s a) l = _
        rw [heq, hstep]
      · refine Or.inr ⟨a :: l₁, p, l₂, by simp [hsplit], heq, ?_, ?_⟩
        · rw [hstep] at hlt
          simp at hlt
          omega
        · intro y hy
          rcases List.mem_cons.mp hy with rfl | hy
          · rw [hstep] at hlt
            simp at hlt
            omega
          · exact hall y hy
    · have hstep : fillStepP q r s a = s := by
        unfold fillStepP fillStep
        rw [if_neg h]
      rw [show List.foldl (fillStepP q r) s (a :: l)
          = List.foldl (fillStepP q r) (fillStepP q r s a) l from rfl, hstep]
      rcases ih s with ⟨heq, hle⟩ | ⟨l₁, p, l₂, hsplit, heq, hlt, hall⟩
      · refine Or.inl ⟨heq, ?_⟩
        intro p hp
        rcases List.mem_cons.mp hp with rfl | hp
        · omega
        · exact hle p hp
      · refine Or.inr ⟨a :: l₁, p, l₂, by simp [hsplit], heq, hlt, ?_⟩
        intro y hy
        rcases List.mem_cons.mp hy with rfl | hy
        · omega
        · exact hall y hy

/-- The traceback origin stays inside the matrix. -/
theorem fillScan_bounds (q r : List Char) :
    (fillScan q r).maxRow ≤ q.length ∧ (fillScan q r).maxCol ≤ r.length := by
  rw [fillScan_eq_foldl]
  rcases foldl_fillStep_first q r (rowMajor r.length q.length) ⟨0, 0, 0⟩ with
    ⟨heq, _⟩ | ⟨l₁, p, l₂, hsplit, heq, _, _⟩
  · rw [heq]
    exact ⟨Nat.zero_le _, Nat.zero_le _⟩
  · rw [heq]
    have hp : p ∈ rowMajor r.length q.length := by
      rw [hsplit]
      exact List.mem_append_right _ (List.mem_cons_self _ _)
    rw [mem_rowMajor] at hp
    exact ⟨hp.2.1, hp.2.2.2⟩

/-- The final maximum dominates every matrix cell. -/
theorem fillScan_ge (q r : List Char) (i j : Nat)
    (hi : i ≤ q.length) (hj : j ≤ r.length) :
    cell q r i j ≤ (fillScan q r).maxScore := by
  rw [fillScan_eq_foldl]
  rcases Nat.eq_zero_or_pos i with rfl | hi1
  · rw [cell_zero_left]
    exact le_trans (le_refl 0) (foldl_fillStep_le q r _ ⟨0, 0, 0⟩).1
  rcases Nat.eq_zero_or_pos j with rfl | hj1
  · rw [cell_zero_right]
    exact le_trans (le_refl 0) (foldl_fillStep_le q r _ ⟨0, 0, 0⟩).1
  exact (foldl_fillStep_le q r _ ⟨0, 0, 0⟩).2 (i, j)
    ((mem_rowMajor _ _ _).mpr ⟨hi1, hi, hj1, hj⟩)

/-- The recorded maximum is the value of the recorded coordinates. -/
theorem fillScan_attained (q r : List Char) :
    cell q r (fillScan q r).maxRow (fillScan q r).maxCol = (fillScan q r).maxScore := by
  rw [fillScan_eq_foldl]
  rcases foldl_fillStep_first q r (rowMajor r.length q.length) ⟨0, 0, 0⟩ with
    ⟨heq, _⟩ | ⟨l₁, p, l₂, hsplit, heq, _, _⟩
  · rw [heq]
    exact cell_zero_left q r 0
  · rw [heq]

/-- C7: the traceback origin is the first cell, in the row-major order of
the fill scan, whose value attains the matrix maximum — the running record
is replaced only on a strictly-greater comparison, so a later equal-valued
cell never overrides it.  Cells (boundary cells included) strictly before
the origin in row-major order carry strictly smaller values, and no cell
exceeds the recorded maximum. -/
theorem claim_C7 (q r : List Char) :
    cell q r (fillScan q r).maxRow (fillScan q r).maxCol = (fillScan q r).maxScore ∧
    (fillScan q r).maxRow ≤ q.length ∧ (fillScan q r).maxCol ≤ r.length ∧
    (∀ i j, i ≤ q.length → j ≤ r.length → cell q r i j ≤ (fillScan q r).maxScore) ∧
    (∀ i j, i ≤ q.length → j ≤ r.length →
      rmLt (i, j) ((fillScan q r).maxRow, (fillScan q r).maxCol) →
      cell q r i j < (fillScan q r).maxScore) := by
  refine ⟨fillScan_attained q r, (fillScan_bounds q r).1, (fillScan_bounds q r).2,
    fun i j hi hj => fillScan_ge q r i j hi hj, ?_⟩
  intro i j hi hj hbefore
  rw [fillScan_eq_foldl] at hbefore ⊢
  rcases foldl_fillStep_first q r (rowMajor r.length q.length) ⟨0, 0, 0⟩ with
    ⟨heq, _⟩ | ⟨l₁, p, l₂, hsplit, heq, hgt, hall⟩
  · rw [heq] at hbefore
    have hb : rmLt (i, j) (0, 0) := hbefore
    unfold rmLt at hb
    simp only at hb
    omega
  · rw [heq] at hbefore ⊢
    have hb : rmLt (i, j) (p.1, p.2) := hbefore
    unfold rmLt at hb
    simp only at hb
    show cell q r i j < cell q r p.1 p.2
    have hgt0 : (0 : Int) < cell q r p.1 p.2 := hgt
    rcases Nat.eq_zero_or_pos i with rfl | hi1
    · rw [cell_zero_left]
      exact hgt0
    rcases Nat.eq_zero_or_pos j with rfl | hj1
    · rw [cell_zero_right]
      exact hgt0
    have hmem : (i, j) ∈ rowMajor r.length q.length :=
      (mem_rowMajor _ _ _).mpr ⟨hi1, hi, hj1, hj⟩
    rw [hsplit] at hmem
    rcases List.mem_append.mp hmem with hmem | hmem
    · exact hall (i, j) hmem
    · rcases List.mem_cons.mp hmem with heqp | hmem
      · have h1 : i = p.1 := congrArg Prod.fst heqp
        have h2 : j = p.2 := congrArg Prod.snd heqp
        omega
      · have hpw := rowMajor_pairwise r.length q.length
        rw [hsplit] at hpw
        rcases List.pairwise_append.mp hpw with ⟨_, hpw2, _⟩
        have hplt : rmLt p (i, j) := (List.pairwise_cons.mp hpw2).1 (i, j) hmem
        unfold rmLt at hplt
        simp only at hplt
        omega

/-- C7 witness: for query "A" and reference "BA" the maximum 2 is attained
at (1, 2), and the earlier cell (1, 1) carries a strictly smaller value. -/
theorem claim_C7_witness :
    cell ['A'] ['B', 'A'] 1 1 < (fillScan ['A'] ['B', 'A']).maxScore :=
  (claim_C7 ['A'] ['B', 'A']).2.2.2.2 1 1 (by decide) (by decide)
    (Or.inr ⟨by decide, by decide⟩)

/-! ### Traceback step lemmas -/

/-- The traceback loop exits exactly at a boundary or at a non-positive
cell (smith_waterman.go line 89). -/
theorem tracebackGo_stop (M : Nat → Nat → Int) (q r : List Char)
    (f row col : Nat) (h : row = 0 ∨ col = 0 ∨ ¬ M row col > 0) :
    tracebackGo M q r f row col = ([], []) := by
  match f, row, col with
  | 0, _, _ => rfl
  | _ + 1, 0, _ => rfl
  | _ + 1, _ + 1, 0 => rfl
  | f + 1, r0 + 1, c0 + 1 =>
    have hnp : ¬ M (r0 + 1) (c0 + 1) > 0 := by
      rcases h with h | h | h
      · omega
      · omega
      · exact h
    simp only [tracebackGo]
    rw [if_neg hnp]

/-- Diagonal step of the traceback (smith_waterman.go lines 99-103). -/
theorem tracebackGo_diag (M : Nat → Nat → Int) (q r : List Char)
    (f r0 c0 : Nat) (hpos : M (r0 + 1) (c0 + 1) > 0)
    (hdiag : M (r0 + 1) (c0 + 1) = M r0 c0 + matchAt q r r0 c0) :
    tracebackGo M q r (f + 1) (r0 + 1) (c0 + 1) =
      ((tracebackGo M q r f r0 c0).1 ++ [q.getD r0 'A'],
       (tracebackGo M q r f r0 c0).2 ++ [r.getD c0 'A']) := by
  simp only [tracebackGo]
  rw [if_pos hpos, if_pos hdiag]

/-- Up step of the traceback — gap in the reference (smith_waterman.go
lines 104-108), taken only when the diagonal term does not match. -/
theorem tracebackGo_up (M : Nat → Nat → Int) (q r : List Char)
    (f r0 c0 : Nat) (hpos : M (r0 + 1) (c0 + 1) > 0)
    (hnd : ¬ M (r0 + 1) (c0 + 1) = M r0 c0 + matchAt q r r0 c0)
    (hup : M (r0 + 1) (c0 + 1) = M r0 (c0 + 1) + GapPenalty) :
    tracebackGo M q r (f + 1) (r0 + 1) (c0 + 1) =
      ((tracebackGo M q r f r0 (c0 + 1)).1 ++ [q.getD r0 'A'],
       (tracebackGo M q r f r0 (c0 + 1)).2 ++ ['-']) := by
  simp only [tracebackGo]
  rw [if_pos hpos, if_neg hnd, if_pos hup]

/-- Left step of the traceback — gap in the query (smith_waterman.go lines
109-113), taken only when neither the diagonal nor the up term matches. -/
theorem tracebackGo_left (M : Nat → Nat → Int) (q r : List Char)
    (f r0 c0 : Nat) (hpos : M (r0 + 1) (c0 + 1) > 0)
    (hnd : ¬ M (r0 + 1) (c0 + 1) = M r0 c0 + matchAt q r r0 c0)
    (hnu : ¬ M (r0 + 1) (c0 + 1) = M r0 (c0 + 1) + GapPenalty)
    (hleft : M (r0 + 1) (c0 + 1) = M (r0 + 1) c0 + GapPenalty) :
    tracebackGo M q r (f + 1) (r0 + 1) (c0 + 1) =
      ((tracebackGo M q r f (r0 + 1) c0).1 ++ ['-'],
       (tracebackGo M q r f (r0 + 1) c0).2 ++ [r.getD c0 'A']) := by
  simp only [tracebackGo]
  rw [if_pos hpos, if_neg hnd, if_neg hnu, if_pos hleft]

/-- Safeguard break of the traceback (smith_waterman.go lines 114-117). -/
theorem tracebackGo_break (M : Nat → Nat → Int) (q r : List Char)
    (f r0 c0 : Nat) (hpos : M (r0 + 1) (c0 + 1) > 0)
    (hnd : ¬ M (r0 + 1) (c0 + 1) = M r0 c0 + matchAt q r r0 c0)
    (hnu : ¬ M (r0 + 1) (c0 + 1) = M r0 (c0 + 1) + GapPenalty)
    (hnl : ¬ M (r0 + 1) (c0 + 1) = M (r0 + 1) c0 + GapPenalty) :
    tracebackGo M q r (f + 1) (r0 + 1) (c0 + 1) = ([], []) := by
  simp only [tracebackGo]
  rw [if_pos hpos, if_neg hnd, if_neg hnu, if_neg hnl]

/-! ### Self-alignment (C8) -/

/-- Selecting the second element of the four-way maximum when it dominates. -/
theorem max4_eq_second (a b c d : Int) (ha : a ≤ b) (hc : c ≤ b) (hd : d ≤ b) :
    max (max (max a b) c) d = b := by
  rw [max_eq_right ha, max_eq_left hc, max_eq_left hd]

/-- On the diagonal of a self-alignment every step is a match: the value
is exactly twice the coordinate. -/
theorem cell_self_diag (S : List Char) (i : Nat) :
    cell S S i i = 2 * (i : Int) := by
  induction i with
  | zero =>
    rw [cell_zero_left]
    simp
  | succ i ih =>
    rw [cell_succ, matchAt_self, smithMax_four, ih]
    have hu := cell_le S S i (i + 1)
    have hl := cell_le S S (i + 1) i
    rw [min_eq_left (Nat.le_succ i)] at hu
    rw [min_eq_right (Nat.le_succ i)] at hl
    rw [show (MatchScore : Int) = 2 from rfl,
      show (GapPenalty : Int) = -2 from rfl]
    rw [max4_eq_second _ _ _ _ (by omega) (by omega) (by omega)]
    push_cast
    ring

/-- The fill scan of a self-alignment records maximum 2·|S| at (|S|, |S|). -/
theorem fillScan_self (S : List Char) :
    (fillScan S S).maxScore = 2 * (S.length : Int) ∧
    (fillScan S S).maxRow = S.length ∧ (fillScan S S).maxCol = S.length := by
  rcases Nat.eq_zero_or_pos S.length with h0 | hpos
  · have hrm : fillScan S S = ⟨0, 0, 0⟩ := by
      rw [fillScan_eq_foldl, h0]
      rfl
    rw [hrm, h0]
    refine ⟨by simp, rfl, rfl⟩
  · have hub : (fillScan S S).maxScore ≤ 2 * (S.length : Int) := by
      rw [fillScan_eq_foldl]
      rcases foldl_fillStep_first S S (rowMajor S.length S.length) ⟨0, 0, 0⟩ with
        ⟨heq, _⟩ | ⟨l₁, p, l₂, hsplit, heq, _, _⟩
      · rw [heq]
        show (0 : Int) ≤ _
        positivity
      · rw [heq]
        show cell S S p.1 p.2 ≤ _
        have hp : p ∈ rowMajor S.length S.length := by
          rw [hsplit]
          exact List.mem_append_right _ (List.mem_cons_self _ _)
        rw [mem_rowMajor] at hp
        have hcl := cell_le S S p.1 p.2
        have hmin : min p.1 p.2 ≤ S.length := le_trans (min_le_left _ _) hp.2.1
        omega
    have hlb : 2 * (S.length : Int) ≤ (fillScan S S).maxScore := by
      have h := fillScan_ge S S S.length S.length (le_refl _) (le_refl _)
      rw [cell_self_diag] at h
      exact h
    have hms : (fillScan S S).maxScore = 2 * (S.length : Int) :=
      le_antisymm hub hlb
    refine ⟨hms, ?_, ?_⟩
    all_goals
      have hat := fillScan_attained S S
      have hb := fillScan_bounds S S
      have hle := cell_le S S (fillScan S S).maxRow (fillScan S S).maxCol
      rw [hat, hms] at hle
      have hm1 := min_le_left (fillScan S S).maxRow (fillScan S S).maxCol
      have hm2 := min_le_right (fillScan S S).maxRow (fillScan S S).maxCol
      omega

/-- Appending the next element to a take. -/
theorem take_append_getD {α : Type} (l : List α) (i : Nat) (h : i < l.length)
    (d : α) : l.take i ++ [l.getD i d] = l.take (i + 1) := by
  rw [List.getD_eq_getElem l d h, ← List.concat_eq_append,
    List.take_concat_get l i h]

/-- The self-alignment traceback from (i, i) returns the first i symbols on
both sides: the diagonal test succeeds at every step. -/
theorem tracebackGo_self (S : List Char) :
    ∀ i : Nat, i ≤ S.length → ∀ f : Nat, 2 * i ≤ f →
      tracebackGo (cell S S) S S f i i = (S.take i, S.take i) := by
  intro i
  induction i with
  | zero =>
    intro _ f _
    cases f
    · rfl
    · rfl
  | succ i ih =>
    intro hi f hf
    match f, hf with
    | f + 1, hf =>
      rw [tracebackGo_diag (cell S S) S S f i i ?hpos ?hdiag]
      case hpos =>
        rw [cell_self_diag]
        positivity
      case hdiag =>
        rw [cell_self_diag, cell_self_diag, matchAt_self,
          show (MatchScore : Int) = 2 from rfl]
        push_cast
        ring
      rw [ih (by omega) f (by omega)]
      rw [take_append_getD S i (by omega) 'A']

/-- Self-alignment of the sequential aligner: maximum score 2·|S| and both
aligned strings equal to S. -/
theorem smithWaterman_self (S : List Char) :
    (SmithWaterman S S).MaxScore = 2 * (S.length : Int) ∧
    (SmithWaterman S S).AlignedQuery = S ∧
    (SmithWaterman S S).AlignedRef = S := by
  obtain ⟨hms, hmr, hmc⟩ := fillScan_self S
  refine ⟨hms, ?_, ?_⟩
  · show (traceback (cell S S) S S (fillScan S S).maxRow (fillScan S S).maxCol).1 = S
    rw [hmr, hmc]
    unfold traceback
    rw [tracebackGo_self S S.length (le_refl _) (S.length + S.length) (by omega)]
    exact List.take_length S
  · show (traceback (cell S S) S S (fillScan S S).maxRow (fillScan S S).maxCol).2 = S
    rw [hmr, hmc]
    unfold traceback
    rw [tracebackGo_self S S.length (le_refl _) (S.length + S.length) (by omega)]
    exact List.take_length S

/-- C8: aligning a sequence against itself scores |S| times the match
reward, and both aligned strings are S itself. -/
theorem claim_C8 (S : List Char) :
    (SmithWaterman S S).MaxScore = (S.length : Int) * MatchScore ∧
    (SmithWaterman S S).AlignedQuery = S ∧
    (SmithWaterman S S).AlignedRef = S := by
  obtain ⟨h1, h2, h3⟩ := smithWaterman_self S
  refine ⟨?_, h2, h3⟩
  rw [h1, show (MatchScore : Int) = 2 from rfl]
  ring

/-! ### The recurrence terms are exhaustive on positive cells (C9, C6) -/

/-- A positive interior cell equals one of the three recurrence terms: the
four-way maximum is positive, so it is not its first argument 0. -/
theorem cell_pos_cases (q r : List Char) (i j : Nat)
    (hpos : 0 < cell q r (i + 1) (j + 1)) :
    cell q r (i + 1) (j + 1) = cell q r i j + matchAt q r i j ∨
    cell q r (i + 1) (j + 1) = cell q r i (j + 1) + GapPenalty ∨
    cell q r (i + 1) (j + 1) = cell q r (i + 1) j + GapPenalty := by
  have hrec := cell_succ q r i j
  rw [smithMax_four] at hrec
  have hm1 := max_choice (max (max 0 (cell q r i j + matchAt q r i j))
    (cell q r i (j + 1) + GapPenalty)) (cell q r (i + 1) j + GapPenalty)
  have hm2 := max_choice (max 0 (cell q r i j + matchAt q r i j))
    (cell q r i (j + 1) + GapPenalty)
  have hm3 := max_choice 0 (cell q r i j + matchAt q r i j)
  omega

/-- C9: the safeguard break of the traceback is unreachable on a matrix
produced by the Smith-Waterman fill — every positive interior cell
reproduces one of the diagonal, up or left recurrence terms. -/
theorem claim_C9 (q r : List Char) (i j : Nat)
    (hpos : 0 < cell q r (i + 1) (j + 1)) :
    cell q r (i + 1) (j + 1) = cell q r i j + matchAt q r i j ∨
    cell q r (i + 1) (j + 1) = cell q r i (j + 1) + GapPenalty ∨
    cell q r (i + 1) (j + 1) = cell q r (i + 1) j + GapPenalty :=
  cell_pos_cases q r i j hpos

/-- C9 witness: at query "A", reference "A" the cell (1,1) is positive and
is produced by the diagonal term. -/
theorem claim_C9_witness :
    0 < cell ['A'] ['A'] 1 1 ∧
    (cell ['A'] ['A'] 1 1 = cell ['A'] ['A'] 0 0 + matchAt ['A'] ['A'] 0 0 ∨
     cell ['A'] ['A'] 1 1 = cell ['A'] ['A'] 0 1 + GapPenalty ∨
     cell ['A'] ['A'] 1 1 = cell ['A'] ['A'] 1 0 + GapPenalty) :=
  ⟨by decide, claim_C9 ['A'] ['A'] 0 0 (by decide)⟩

/-- The fuel argument of `tracebackGo` is irrelevant once it is at least
`row + col`: the loop terminates within that many iterations. -/
theorem tracebackGo_irrel (M : Nat → Nat → Int) (q r : List Char) :
    ∀ f₁ f₂ row col : Nat, row + col ≤ f₁ → row + col ≤ f₂ →
      tracebackGo M q r f₁ row col = tracebackGo M q r f₂ row col := by
  intro f₁
  induction f₁ with
  | zero =>
    intro f₂ row col h₁ _
    match row, col with
    | 0, _ =>
      rw [tracebackGo_stop M q r 0 _ _ (Or.inl rfl),
        tracebackGo_stop M q r f₂ _ _ (Or.inl rfl)]
    | _ + 1, 0 =>
      rw [tracebackGo_stop M q r 0 _ _ (Or.inr (Or.inl rfl)),
        tracebackGo_stop M q r f₂ _ _ (Or.inr (Or.inl rfl))]
    | r0 + 1, c0 + 1 => omega
  | succ f ih =>
    intro f₂ row col h₁ h₂
    match row, col with
    | 0, _ =>
      rw [tracebackGo_stop M q r _ _ _ (Or.inl rfl),
        tracebackGo_stop M q r f₂ _ _ (Or.inl rfl)]
    | _ + 1, 0 =>
      rw [tracebackGo_stop M q r _ _ _ (Or.inr (Or.inl rfl)),
        tracebackGo_stop M q r f₂ _ _ (Or.inr (Or.inl rfl))]
    | r0 + 1, c0 + 1 =>
      match f₂, h₂ with
      | f₂ + 1, h₂ =>
        by_cases hpos : M (r0 + 1) (c0 + 1) > 0
        · by_cases hd : M (r0 + 1) (c0 + 1) = M r0 c0 + matchAt q r r0 c0
          · rw [tracebackGo_diag M q r f r0 c0 hpos hd,
              tracebackGo_diag M q r f₂ r0 c0 hpos hd,
              ih f₂ r0 c0 (by omega) (by omega)]
          · by_cases hu : M (r0 + 1) (c0 + 1) = M r0 (c0 + 1) + GapPenalty
            · rw [tracebackGo_up M q r f r0 c0 hpos hd hu,
                tracebackGo_up M q r f₂ r0 c0 hpos hd hu,
                ih f₂ r0 (c0 + 1) (by omega) (by omega)]
            · by_cases hl : M (r0 + 1) (c0 + 1) = M (r0 + 1) c0 + GapPenalty
              · rw [tracebackGo_left M q r f r0 c0 hpos hd hu hl,
                  tracebackGo_left M q r f₂ r0 c0 hpos hd hu hl,
                  ih f₂ (r0 + 1) c0 (by omega) (by omega)]
              · rw [tracebackGo_break M q r f r0 c0 hpos hd hu hl,
                  tracebackGo_break M q r f₂ r0 c0 hpos hd hu hl]
        · rw [tracebackGo_stop M q r _ _ _ (Or.inr (Or.inr hpos)),
            tracebackGo_stop M q r (f₂ + 1) _ _ (Or.inr (Or.inr hpos))]

/-- parallelTraceback's loop body is identical to traceback's: the two
functions agree at every input. -/
theorem parallelTracebackGo_eq (M : Nat → Nat → Int) (q r : List Char) :
    ∀ f row col : Nat,
      parallelTracebackGo M q r f row col = tracebackGo M q r f row col := by
  intro f
  induction f with
  | zero =>
    intro row col
    rfl
  | succ f ih =>
    intro row col
    match row, col with
    | 0, _ => rfl
    | _ + 1, 0 => rfl
    | r0 + 1, c0 + 1 =>
      simp only [parallelTracebackGo, tracebackGo, ih]

/-- C6: characterization of the traceback on a fill-produced matrix.  It
stops exactly at a boundary or a zero cell; otherwise it takes the first
matching recurrence term in the fixed priority order diagonal, up, left,
emitting one symbol per side (a gap marker on the side not consumed), and
the priority chain is exhaustive (the safeguard break is never reached).
parallelTraceback's loop computes the same function. -/
theorem claim_C6 (q r : List Char) (row col : Nat) :
    ((row = 0 ∨ col = 0 ∨ cell q r row col = 0) →
      traceback (cell q r) q r row col = ([], [])) ∧
    (∀ r0 c0 : Nat, row = r0 + 1 → col = c0 + 1 → 0 < cell q r row col →
      traceback (cell q r) q r row col =
        if cell q r (r0 + 1) (c0 + 1) = cell q r r0 c0 + matchAt q r r0 c0 then
          ((traceback (cell q r) q r r0 c0).1 ++ [q.getD r0 'A'],
           (traceback (cell q r) q r r0 c0).2 ++ [r.getD c0 'A'])
        else if cell q r (r0 + 1) (c0 + 1) = cell q r r0 (c0 + 1) + GapPenalty then
          ((traceback (cell q r) q r r0 (c0 + 1)).1 ++ [q.getD r0 'A'],
           (traceback (cell q r) q r r0 (c0 + 1)).2 ++ ['-'])
        else
          ((traceback (cell q r) q r (r0 + 1) c0).1 ++ ['-'],
           (traceback (cell q r) q r (r0 + 1) c0).2 ++ [r.getD c0 'A'])) ∧
    (∀ f i j : Nat,
      parallelTracebackGo (cell q r) q r f i j = tracebackGo (cell q r) q r f i j) := by
  refine ⟨?_, ?_, parallelTracebackGo_eq (cell q r) q r⟩
  · intro h
    unfold traceback
    apply tracebackGo_stop
    rcases h with h | h | h
    · exact Or.inl h
    · exact Or.inr (Or.inl h)
    · exact Or.inr (Or.inr (by omega))
  · intro r0 c0 hr hc hpos
    subst hr
    subst hc
    unfold traceback
    rw [tracebackGo_irrel (cell q r) q r (r0 + 1 + (c0 + 1)) (r0 + c0 + 1 + 1)
      (r0 + 1) (c0 + 1) (by omega) (by omega)]
    by_cases hd : cell q r (r0 + 1) (c0 + 1) = cell q r r0 c0 + matchAt q r r0 c0
    · rw [tracebackGo_diag (cell q r) q r (r0 + c0 + 1) r0 c0 hpos hd, if_pos hd,
        tracebackGo_irrel (cell q r) q r (r0 + c0 + 1) (r0 + c0) r0 c0
          (by omega) (by omega)]
    · rw [if_neg hd]
      by_cases hu : cell q r (r0 + 1) (c0 + 1) = cell q r r0 (c0 + 1) + GapPenalty
      · rw [tracebackGo_up (cell q r) q r (r0 + c0 + 1) r0 c0 hpos hd hu, if_pos hu,
          tracebackGo_irrel (cell q r) q r (r0 + c0 + 1) (r0 + (c0 + 1)) r0 (c0 + 1)
            (by omega) (by omega)]
      · have hl : cell q r (r0 + 1) (c0 + 1) = cell q r (r0 + 1) c0 + GapPenalty := by
          rcases cell_pos_cases q r r0 c0 hpos with h | h | h
          · exact absurd h hd
          · exact absurd h hu
          · exact h
        rw [tracebackGo_left (cell q r) q r (r0 + c0 + 1) r0 c0 hpos hd hu hl, if_neg hu,
          tracebackGo_irrel (cell q r) q r (r0 + c0 + 1) (r0 + 1 + c0) (r0 + 1) c0
            (by omega) (by omega)]

/-- C6 witness: at query "A", reference "C" the cell (1,1) is 0, so the
traceback from (1,1) stops immediately. -/
theorem claim_C6_witness :
    traceback (cell ['A'] ['C']) ['A'] ['C'] 1 1 = ([], []) :=
  (claim_C6 ['A'] ['C'] 1 1).1 (Or.inr (Or.inr (by decide)))

/-! ### Matrix read/write lemmas for the shared parallel matrix -/

/-- Writing one cell leaves every other position unchanged. -/
theorem mread_mwrite_ne (mat : List (List Int)) (i j i' j' : Nat) (v : Int)
    (h : i' ≠ i ∨ j' ≠ j) :
    mread (mwrite mat i j v) i' j' = mread mat i' j' := by
  unfold mread mwrite
  rcases eq_or_ne i i' with rfl | hne
  · have hj : j' ≠ j := by tauto
    by_cases hlen : i < mat.length
    · have hrow : (mat.set i ((mat.getD i []).set j v)).getD i [] =
          (mat.getD i []).set j v := by
        rw [List.getD_eq_getElem?_getD (mat.set i ((mat.getD i []).set j v)) i [],
          List.getElem?_set_self hlen, Option.getD_some]
      rw [hrow, List.getD_eq_getElem?_getD ((mat.getD i []).set j v) j' 0,
        List.getElem?_set_ne (by omega), ← List.getD_eq_getElem?_getD]
    · rw [List.set_eq_of_length_le (by omega)]
  · have hrow : (mat.set i ((mat.getD i []).set j v)).getD i' [] =
        mat.getD i' [] := by
      rw [List.getD_eq_getElem?_getD (mat.set i ((mat.getD i []).set j v)) i' [],
        List.getElem?_set_ne hne, ← List.getD_eq_getElem?_getD]
    rw [hrow]

/-- getD on a replicate, for either side of the length bound. -/
theorem getD_replicate_ite {α : Type} (k : Nat) (c d : α) (x : Nat) :
    (List.replicate k c).getD x d = if x < k then c else d := by
  rw [List.getD_eq_getElem?_getD, List.getElem?_replicate]
  by_cases h : x < k
  · rw [if_pos h, if_pos h, Option.getD_some]
  · rw [if_neg h, if_neg h, Option.getD_none]

/-- The freshly allocated matrix reads 0 everywhere. -/
theorem mread_initMatrix (m n i j : Nat) : mread (initMatrix m n) i j = 0 := by
  unfold mread initMatrix
  rw [getD_replicate_ite]
  by_cases h : i < m + 1
  · rw [if_pos h, getD_replicate_ite]
    split
    · rfl
    · rfl
  · rw [if_neg h]
    rfl

/-- Every cell listed for wave `d` lies on anti-diagonal `d`, strictly
inside the matrix. -/
theorem waveCells_mem (m n d : Nat) (p : Nat × Nat) (hp : p ∈ waveCells m n d) :
    p.1 + p.2 = d ∧ 1 ≤ p.1 ∧ 1 ≤ p.2 := by
  unfold waveCells at hp
  rw [List.mem_filterMap] at hp
  obtain ⟨i0, _, hsome⟩ := hp
  split at hsome
  · rename_i hcond
    have hpeq : p = (i0 + 1, d - (i0 + 1)) := (Option.some_inj.mp hsome).symm
    rw [hpeq]
    refine ⟨?_, by omega, by omega⟩
    simp only
    omega
  · exact absurd hsome (by simp)

/-! ### Non-negativity of the parallel matrix under every schedule (C3) -/

/-- Every value the wave goroutines store is a maximum whose first
argument is 0. -/
theorem cellValue_nonneg (q r : List Char) (mat : List (List Int)) (i j : Nat) :
    0 ≤ cellValue q r mat i j := by
  unfold cellValue
  rw [smithMax_four]
  exact le_trans (le_trans (le_max_left 0 _) (le_max_left _ _)) (le_max_left _ _)

/-- Reading back the written position yields the written value, or (for an
out-of-range write, never exercised) the old value. -/
theorem mread_mwrite_self_cases (mat : List (List Int)) (i j : Nat) (v : Int) :
    mread (mwrite mat i j v) i j = v ∨
    mread (mwrite mat i j v) i j = mread mat i j := by
  unfold mread mwrite
  by_cases hlen : i < mat.length
  · have hrow : (mat.set i ((mat.getD i []).set j v)).getD i [] =
        (mat.getD i []).set j v := by
      rw [List.getD_eq_getElem?_getD (mat.set i ((mat.getD i []).set j v)) i [],
        List.getElem?_set_self hlen, Option.getD_some]
    rw [hrow]
    by_cases hjl : j < (mat.getD i []).length
    · left
      rw [List.getD_eq_getElem?_getD ((mat.getD i []).set j v) j 0,
        List.getElem?_set_self hjl, Option.getD_some]
    · right
      rw [List.set_eq_of_length_le (by omega)]
  · right
    rw [List.set_eq_of_length_le (by omega)]

/-- The matrix reads non-negative everywhere. -/
def MatNonneg (mat : List (List Int)) : Prop :=
  ∀ i j : Nat, 0 ≤ mread mat i j

/-- Row 0 and column 0 of the matrix read 0. -/
def BoundaryZero (mat : List (List Int)) : Prop :=
  (∀ j : Nat, mread mat 0 j = 0) ∧ (∀ i : Nat, mread mat i 0 = 0)

/-- Writing a non-negative value preserves matrix non-negativity. -/
theorem matNonneg_mwrite (mat : List (List Int)) (i j : Nat) (v : Int)
    (hv : 0 ≤ v) (h : MatNonneg mat) : MatNonneg (mwrite mat i j v) := by
  intro i' j'
  by_cases hij : i' = i ∧ j' = j
  · obtain ⟨rfl, rfl⟩ := hij
    rcases mread_mwrite_self_cases mat i' j' v with he | he
    · rw [he]
      exact hv
    · rw [he]
      exact h i' j'
  · rw [mread_mwrite_ne mat i j i' j' v (by tauto)]
    exact h i' j'

/-- Writing an interior cell leaves row 0 and column 0 at 0. -/
theorem boundaryZero_mwrite (mat : List (List Int)) (i j : Nat) (v : Int)
    (h1 : 1 ≤ i) (h2 : 1 ≤ j) (h : BoundaryZero mat) :
    BoundaryZero (mwrite mat i j v) := by
  constructor
  · intro j'
    rw [mread_mwrite_ne mat i j 0 j' v (Or.inl (by omega))]
    exact h.1 j'
  · intro i'
    rw [mread_mwrite_ne mat i j i' 0 v (Or.inr (by omega))]
    exact h.2 i'

/-- Whatever the maximum-record branch, execCell's matrix effect is the
single write of the computed recurrence value. -/
theorem execCell_mat (q r : List Char) (st : FillState) (p : Nat × Nat) :
    (execCell q r st p).mat =
      mwrite st.mat p.1 p.2 (cellValue q r st.mat p.1 p.2) := by
  unfold execCell
  split
  · split
    · rfl
    · rfl
  · rfl

/-- A run of interior-cell computations preserves both matrix invariants. -/
theorem foldl_execCell_inv (q r : List Char) :
    ∀ (cells : List (Nat × Nat)) (st : FillState),
      (∀ p ∈ cells, 1 ≤ p.1 ∧ 1 ≤ p.2) →
      MatNonneg st.mat ∧ BoundaryZero st.mat →
      MatNonneg ((cells.foldl (execCell q r) st).mat) ∧
        BoundaryZero ((cells.foldl (execCell q r) st).mat) := by
  intro cells
  induction cells with
  | nil => exact fun st _ h => h
  | cons p cells ih =>
    intro st hall hinv
    rw [List.foldl_cons]
    refine ih _ (fun y hy => hall y (List.mem_cons_of_mem p hy)) ?_
    obtain ⟨hp1, hp2⟩ := hall p (List.mem_cons_self p cells)
    constructor
    · rw [execCell_mat]
      exact matNonneg_mwrite _ _ _ _ (cellValue_nonneg q r st.mat p.1 p.2) hinv.1
    · rw [execCell_mat]
      exact boundaryZero_mwrite _ _ _ _ hp1 hp2 hinv.2

/-- Any sequence of whole waves preserves both matrix invariants. -/
theorem foldl_execWave_inv (q r : List Char) :
    ∀ (order : List Nat) (st : FillState),
      MatNonneg st.mat ∧ BoundaryZero st.mat →
      MatNonneg ((order.foldl (execWave q r) st).mat) ∧
        BoundaryZero ((order.foldl (execWave q r) st).mat) := by
  intro order
  induction order with
  | nil => exact fun st h => h
  | cons d rest ih =>
    intro st hinv
    rw [List.foldl_cons]
    refine ih _ ?_
    unfold execWave
    exact foldl_execCell_inv q r _ st
      (fun p hp => ⟨(waveCells_mem q.length r.length d p hp).2.1,
        (waveCells_mem q.length r.length d p hp).2.2⟩) hinv

/-- Under every goroutine schedule, the shared matrix of the parallel fill
ends non-negative with zero boundaries. -/
theorem parallelFill_inv (q r : List Char) (order : List Nat) :
    MatNonneg (parallelFill q r order).mat ∧
      BoundaryZero (parallelFill q r order).mat := by
  unfold parallelFill
  refine foldl_execWave_inv q r order _ ⟨?_, ?_, ?_⟩
  · intro i j
    show (0 : Int) ≤ mread (initMatrix q.length r.length) i j
    rw [mread_initMatrix]
  · intro j
    exact mread_initMatrix _ _ 0 j
  · intro i
    exact mread_initMatrix _ _ i 0

/-- On the fallback path the parallel aligner returns the sequential
matrix. -/
theorem parallelSW_scoreMatrix_fallback (q r : List Char) (w : Int)
    (order : List Nat) (h : q.length < 50 ∨ r.length < 50) :
    (ParallelSmithWaterman q r w order).ScoreMatrix = scoreMatrix q r := by
  unfold ParallelSmithWaterman
  rw [if_pos h]
  rfl

/-- On the parallel path the returned matrix is the schedule's fill
matrix. -/
theorem parallelSW_scoreMatrix (q r : List Char) (w : Int) (order : List Nat)
    (h : ¬(q.length < 50 ∨ r.length < 50)) :
    (ParallelSmithWaterman q r w order).ScoreMatrix = (parallelFill q r order).mat := by
  unfold ParallelSmithWaterman
  rw [if_neg h]

/-- C3: every cell of the score matrix returned by the aligner is ≥ 0,
with row 0 and column 0 equal to 0.  For the sequential aligner the matrix
is the table of `cell` values, each a maximum whose first argument is 0;
for the parallel aligner, under any worker count and any goroutine
schedule, every stored value is likewise a maximum with 0 written into a
zero-initialized matrix, and only interior cells are ever written. -/
theorem claim_C3 (q r : List Char) (i j : Nat) :
    0 ≤ cell q r i j ∧ cell q r 0 j = 0 ∧ cell q r i 0 = 0 ∧
    0 ≤ mread ((SmithWaterman q r).ScoreMatrix) i j ∧
    (∀ (w : Int) (order : List Nat),
      0 ≤ mread ((ParallelSmithWaterman q r w order).ScoreMatrix) i j ∧
      mread ((ParallelSmithWaterman q r w order).ScoreMatrix) 0 j = 0 ∧
      mread ((ParallelSmithWaterman q r w order).ScoreMatrix) i 0 = 0) := by
  have hsm : (SmithWaterman q r).ScoreMatrix = scoreMatrix q r := rfl
  refine ⟨cell_nonneg q r i j, cell_zero_left q r j, cell_zero_right q r i, ?_, ?_⟩
  · rw [hsm, mread_scoreMatrix]
    split
    · exact cell_nonneg q r i j
    · exact le_refl 0
  · intro w order
    by_cases hfb : q.length < 50 ∨ r.length < 50
    · rw [parallelSW_scoreMatrix_fallback q r w order hfb,
        mread_scoreMatrix, mread_scoreMatrix, mread_scoreMatrix]
      refine ⟨?_, ?_, ?_⟩
      · split
        · exact cell_nonneg q r i j
        · exact le_refl 0
      · split
        · exact cell_zero_left q r j
        · rfl
      · split
        · exact cell_zero_right q r i
        · rfl
    · rw [parallelSW_scoreMatrix q r w order hfb]
      obtain ⟨hnn, hb⟩ := parallelFill_inv q r order
      exact ⟨hnn i j, hb.1 j, hb.2 i⟩

/-! ### The code's missing inter-wave barrier (C1, C2)

The launch loop of parallel_smith_waterman.go lines 68-105 starts one
goroutine per anti-diagonal and the only synchronization is the single
`wg.Wait()` on line 108, after every goroutine has been launched.  Nothing
orders the goroutine of wave d before the goroutine of wave d+1, so the
schedule that runs the waves in strictly decreasing order is permitted.
Under that schedule every cell is computed from still-zero neighbours, so
on the all-'A' 50×50 input every computed value is 2 while the sequential
aligner scores 100. -/

/-- A query of 50 'A's: the smallest shape that takes the parallel path
(the fallback of lines 37-47 requires both lengths < 50 … i.e. it is taken
unless both are ≥ 50). -/
def fiftyA : List Char := List.replicate 50 'A'

/-- The wave goroutines in strictly decreasing order — a schedule the
code's synchronization permits. -/
def revWaves : List Nat := (waveRange fiftyA.length fiftyA.length).reverse

/-- The sequence of cell computations a whole-wave schedule performs. -/
def schedCells (q r : List Char) (order : List Nat) : List (Nat × Nat) :=
  order.foldr (fun d acc => waveCells q.length r.length d ++ acc) []

/-- matchAt on the all-'A' sequence is always the match reward. -/
theorem matchAt_fiftyA (a b : Nat) : matchAt fiftyA fiftyA a b = MatchScore := by
  unfold matchAt fiftyA
  rw [if_pos]
  have h : ∀ x : Nat, (List.replicate 50 'A').getD x 'A' = 'A' := by
    intro x
    rw [List.getD_eq_getElem?_getD, List.getElem?_replicate]
    by_cases hx : x < 50
    · rw [if_pos hx, Option.getD_some]
    · rw [if_neg hx, Option.getD_none]
  rw [h a, h b]

/-- Decreasing-schedule invariant: the running maximum is already 2, and
every cell strictly below anti-diagonal `w` is still unwritten (zero). -/
def RacyInv (w : Nat) (st : FillState) : Prop :=
  st.maxScore = 2 ∧ ∀ i j : Nat, i + j < w → mread st.mat i j = 0

/-- One cell of wave `w` executed on a still-zero neighbourhood computes
the value 2 and preserves the invariant. -/
theorem execCell_racy (st : FillState) (p : Nat × Nat) (w : Nat)
    (hsum : p.1 + p.2 = w) (h1 : 1 ≤ p.1) (h2 : 1 ≤ p.2)
    (hinv : RacyInv w st) : RacyInv w (execCell fiftyA fiftyA st p) := by
  obtain ⟨hmax, hzero⟩ := hinv
  have hv : cellValue fiftyA fiftyA st.mat p.1 p.2 = 2 := by
    unfold cellValue
    rw [hzero _ _ (by omega), hzero _ _ (by omega), hzero _ _ (by omega),
      matchAt_fiftyA]
    decide
  unfold execCell
  rw [hv, if_pos (by decide), hmax, if_neg (by decide)]
  refine ⟨rfl, ?_⟩
  intro i j hij
  show mread (mwrite st.mat p.1 p.2 2) i j = 0
  rw [mread_mwrite_ne st.mat p.1 p.2 i j 2 (by omega)]
  exact hzero i j hij

/-- A whole wave of anti-diagonal `w` preserves the invariant. -/
theorem foldl_execCell_racy (w : Nat) :
    ∀ (cells : List (Nat × Nat)) (st : FillState),
      (∀ p ∈ cells, p.1 + p.2 = w ∧ 1 ≤ p.1 ∧ 1 ≤ p.2) → RacyInv w st →
      RacyInv w (cells.foldl (execCell fiftyA fiftyA) st) := by
  intro cells
  induction cells with
  | nil => exact fun st _ h => h
  | cons p cells ih =>
    intro st hall hinv
    rw [List.foldl_cons]
    refine ih _ (fun y hy => hall y (List.mem_cons_of_mem p hy)) ?_
    obtain ⟨hs, hp1, hp2⟩ := hall p (List.mem_cons_self p cells)
    exact execCell_racy st p w hs hp1 hp2 hinv

/-- The goroutine of wave `d`, run on a state where nothing below diagonal
`d` has been written yet, preserves the invariant. -/
theorem execWave_racy (st : FillState) (d : Nat) (hinv : RacyInv d st) :
    RacyInv d (execWave fiftyA fiftyA st d) := by
  unfold execWave
  exact foldl_execCell_racy d _ st
    (fun p hp => waveCells_mem fiftyA.length fiftyA.length d p hp) hinv

/-- The invariant weakens to smaller wave bounds. -/
theorem racyInv_mono {w w' : Nat} {st : FillState} (h : w' ≤ w)
    (hi : RacyInv w st) : RacyInv w' st :=
  ⟨hi.1, fun i j hij => hi.2 i j (by omega)⟩

/-- Running the waves 2..k+1 in decreasing order from an invariant state
keeps the maximum at 2. -/
theorem racy_fold :
    ∀ (k : Nat) (st : FillState), RacyInv (k + 1) st →
      RacyInv 1 (((List.range' 2 k).reverse).foldl (execWave fiftyA fiftyA) st) := by
  intro k
  induction k with
  | zero => exact fun st h => h
  | succ k ih =>
    intro st h
    have hconcat : List.range' 2 (k + 1) = List.range' 2 k ++ [2 + k] := by
      rw [List.range'_concat]
      norm_num
    rw [hconcat, List.reverse_append, List.reverse_singleton, List.singleton_append,
      List.foldl_cons]
    apply ih
    have h' : RacyInv (2 + k) st := by
      rw [Nat.add_comm]
      exact h
    exact racyInv_mono (by omega) (execWave_racy st (2 + k) h')

/-- The decreasing wave order written out: wave 100 first, then 99..2. -/
theorem revWaves_eq : revWaves = 100 :: (List.range' 2 98).reverse := by
  unfold revWaves waveRange
  rw [show fiftyA.length + fiftyA.length - 1 = 99 by simp [fiftyA]]
  rw [show (99 : Nat) = 98 + 1 from rfl, List.range'_concat,
    List.reverse_append, List.reverse_singleton, List.singleton_append]

/-- Under the decreasing wave schedule the parallel fill of the all-'A'
50×50 instance ends with running maximum 2. -/
theorem parallelFill_racy : (parallelFill fiftyA fiftyA revWaves).maxScore = 2 := by
  unfold parallelFill
  rw [revWaves_eq, List.foldl_cons]
  have hw100 : waveCells fiftyA.length fiftyA.length 100 = [(50, 50)] := by decide
  have hst1 : RacyInv 99
      (execWave fiftyA fiftyA ⟨initMatrix fiftyA.length fiftyA.length, 0, 0, 0⟩ 100) := by
    unfold execWave
    rw [hw100, List.foldl_cons, List.foldl_nil]
    have hv : cellValue fiftyA fiftyA (initMatrix fiftyA.length fiftyA.length) 50 50 = 2 := by
      unfold cellValue
      rw [mread_initMatrix, mread_initMatrix, mread_initMatrix, matchAt_fiftyA]
      decide
    unfold execCell
    simp only
    rw [hv, if_pos (by decide), if_pos (by decide)]
    refine ⟨rfl, ?_⟩
    intro i j hij
    show mread (mwrite (initMatrix fiftyA.length fiftyA.length) 50 50 2) i j = 0
    rw [mread_mwrite_ne _ _ _ _ _ _ (by omega)]
    exact mread_initMatrix _ _ i j
  have hfin := racy_fold 98 _ hst1
  exact hfin.1

/-- Peeling the largest wave off a reversed wave range. -/
theorem range_two_reverse_succ (k : Nat) :
    (List.range' 2 (k + 1)).reverse = (2 + k) :: (List.range' 2 k).reverse := by
  rw [List.range'_concat, List.reverse_append, List.reverse_singleton,
    List.singleton_append, one_mul]

/-- On the parallel path (no fallback), the returned MaxScore is the one
the schedule's fill ends with. -/
theorem parallelSW_maxScore (q r : List Char) (w : Int) (order : List Nat)
    (h : ¬(q.length < 50 ∨ r.length < 50)) :
    (ParallelSmithWaterman q r w order).MaxScore = (parallelFill q r order).maxScore := by
  unfold ParallelSmithWaterman
  rw [if_neg h]

/-- C1 (refutation at the code): the decreasing wave order is a schedule
the code's synchronization permits, and under it the parallel aligner
returns MaxScore 2 on the all-'A' 50×50 instance while the sequential
aligner returns 100 — the missing inter-diagonal barrier makes the
claimed equality fail. -/
theorem claim_C1_race :
    PermittedOrder fiftyA fiftyA revWaves ∧
    (ParallelSmithWaterman fiftyA fiftyA 4 revWaves).MaxScore = 2 ∧
    (SmithWaterman fiftyA fiftyA).MaxScore = 100 ∧
    (ParallelSmithWaterman fiftyA fiftyA 4 revWaves).MaxScore ≠
      (SmithWaterman fiftyA fiftyA).MaxScore := by
  have hseq : (SmithWaterman fiftyA fiftyA).MaxScore = 100 := by
    have h := (smithWaterman_self fiftyA).1
    rw [h, show (fiftyA.length : Int) = 50 by simp [fiftyA]]
    norm_num
  have hpar : (ParallelSmithWaterman fiftyA fiftyA 4 revWaves).MaxScore = 2 := by
    rw [parallelSW_maxScore fiftyA fiftyA 4 revWaves (by decide)]
    exact parallelFill_racy
  exact ⟨List.reverse_perm _, hpar, hseq, by rw [hpar, hseq]; decide⟩

/-- C2 (refutation at the code): under the permitted decreasing schedule
the single cell (50, 50) of anti-diagonal 100 is the first cell computed,
before the cell (49, 50) of anti-diagonal 99 — no barrier forces diagonal
d to complete before diagonal d+1 begins. -/
theorem claim_C2_race :
    PermittedOrder fiftyA fiftyA revWaves ∧
    (50, 50) ∈ waveCells fiftyA.length fiftyA.length 100 ∧
    (49, 50) ∈ waveCells fiftyA.length fiftyA.length 99 ∧
    List.head? (schedCells fiftyA fiftyA revWaves) = some (50, 50) ∧
    (49, 50) ∈ List.tail (schedCells fiftyA fiftyA revWaves) := by
  have h1 : schedCells fiftyA fiftyA revWaves =
      waveCells fiftyA.length fiftyA.length 100 ++
        schedCells fiftyA fiftyA ((List.range' 2 98).reverse) := by
    rw [revWaves_eq]
    rfl
  have hw100 : waveCells fiftyA.length fiftyA.length 100 = [(50, 50)] := by decide
  have h2 : (List.range' 2 98).reverse = 99 :: (List.range' 2 97).reverse := by
    rw [show (98 : Nat) = 97 + 1 from rfl, range_two_reverse_succ]
  refine ⟨List.reverse_perm _, by decide, by decide, ?_, ?_⟩
  · rw [h1, hw100, List.singleton_append]
    rfl
  · rw [h1, hw100, List.singleton_append]
    show (49, 50) ∈ schedCells fiftyA fiftyA ((List.range' 2 98).reverse)
    rw [h2]
    show (49, 50) ∈ waveCells fiftyA.length fiftyA.length 99 ++
      schedCells fiftyA fiftyA ((List.range' 2 97).reverse)
    exact List.mem_append_left _ (by decide)

/-- C10: the parallel aligner's result does not depend on the numWorkers
argument — after the normalization of lines 32-34 the value is never read
by the fallback, the wave dispatch, or the traceback. -/
theorem claim_C10 (q r : List Char) (w₁ w₂ : Int) (order : List Nat) :
    ParallelSmithWaterman q r w₁ order = ParallelSmithWaterman q r w₂ order := rfl

/-! ### The batch aligner (C5) -/

/-- Folding index-addressed writes never changes the container length. -/
theorem foldl_set_length {α : Type} (f : Nat → α) :
    ∀ (order : List Nat) (acc : List α),
      (order.foldl (fun a i => a.set i (f i)) acc).length = acc.length := by
  intro order
  induction order with
  | nil => intro acc; rfl
  | cons o rest ih =>
    intro acc
    rw [List.foldl_cons, ih, List.length_set]

/-- A slot whose index is never written keeps its value. -/
theorem foldl_set_untouched {α : Type} (f : Nat → α) :
    ∀ (order : List Nat) (acc : List α) (idx : Nat) (d : α), idx ∉ order →
      (order.foldl (fun a i => a.set i (f i)) acc).getD idx d = acc.getD idx d := by
  intro order
  induction order with
  | nil => intro acc idx d _; rfl
  | cons o rest ih =>
    intro acc idx d h
    rw [List.foldl_cons, ih _ idx d (fun hc => h (List.mem_cons_of_mem o hc))]
    have hne : o ≠ idx := fun he => h (he ▸ List.mem_cons_self o rest)
    rw [List.getD_eq_getElem?_getD (acc.set o (f o)) idx d,
      List.getElem?_set_ne hne, ← List.getD_eq_getElem?_getD]

/-- A slot written at least once holds the value determined by its index:
every write to index `idx` writes `f idx`, so completion order is
irrelevant. -/
theorem foldl_set_written {α : Type} (f : Nat → α) :
    ∀ (order : List Nat) (acc : List α) (idx : Nat) (d : α),
      idx ∈ order → idx < acc.length →
      (order.foldl (fun a i => a.set i (f i)) acc).getD idx d = f idx := by
  intro order
  induction order with
  | nil =>
    intro acc idx d h _
    exact absurd h (List.not_mem_nil idx)
  | cons o rest ih =>
    intro acc idx d hmem hlen
    rw [List.foldl_cons]
    by_cases h : idx ∈ rest
    · exact ih _ idx d h (by rw [List.length_set]; exact hlen)
    · have heq : idx = o := by
        rcases List.mem_cons.mp hmem with h' | h'
        · exact h'
        · exact absurd h' h
      subst heq
      rw [foldl_set_untouched f rest _ idx d h,
        List.getD_eq_getElem?_getD (acc.set idx (f idx)) idx d,
        List.getElem?_set_self hlen, Option.getD_some]

/-- C5: for every completion order of the individual alignments, the batch
aligner returns one result per reference, and slot i holds exactly the
sequential alignment of the query against reference i. -/
theorem claim_C5 (q : List Char) (refs : List (List Char)) (w : Int)
    (order : List Nat) (hperm : order.Perm (List.range refs.length)) :
    (ConcurrentSmithWatermanBatch q refs w order).length = refs.length ∧
    ∀ i : Nat, i < refs.length →
      (ConcurrentSmithWatermanBatch q refs w order).getD i emptyAlignmentResult =
        SmithWaterman q (refs.getD i []) := by
  constructor
  · unfold ConcurrentSmithWatermanBatch
    rw [foldl_set_length, List.length_replicate]
  · intro i hi
    unfold ConcurrentSmithWatermanBatch
    refine foldl_set_written _ order _ i _ ?_ ?_
    · exact hperm.mem_iff.mpr (List.mem_range.mpr hi)
    · rw [List.length_replicate]
      exact hi

/-- C5 witness: one query, one reference, completion order [0]. -/
theorem claim_C5_witness :
    [0].Perm (List.range 1) ∧
    (ConcurrentSmithWatermanBatch ['A'] [['C']] 1 [0]).length = 1 ∧
    (ConcurrentSmithWatermanBatch ['A'] [['C']] 1 [0]).getD 0 emptyAlignmentResult =
      SmithWaterman ['A'] ['C'] :=
  ⟨by decide, (claim_C5 ['A'] [['C']] 1 [0] (by decide)).1,
    (claim_C5 ['A'] [['C']] 1 [0] (by decide)).2 0 (by decide)⟩

/-! ### Traceback output invariants (C4) -/

/-- Dropping a full take yields nothing. -/
theorem drop_take_self {α : Type} (q : List α) (row : Nat) :
    (q.take row).drop row = [] :=
  List.drop_eq_nil_of_le (by rw [List.length_take]; exact min_le_left _ _)

/-- An in-range getD is a member of the list. -/
theorem getD_mem_of_lt {α : Type} (l : List α) (d : α) (i : Nat)
    (h : i < l.length) : l.getD i d ∈ l := by
  rw [List.getD_eq_getElem l d h]
  exact List.getElem_mem h

/-- Filtering keeps an appended non-gap symbol. -/
theorem filter_append_keep (l : List Char) (x : Char) (h : x ≠ '-') :
    (l ++ [x]).filter (fun c => c ≠ '-') = l.filter (fun c => c ≠ '-') ++ [x] := by
  rw [List.filter_append]
  simp [h]

/-- Filtering drops an appended gap marker. -/
theorem filter_append_gap (l : List Char) :
    (l ++ ['-']).filter (fun c => c ≠ '-') = l.filter (fun c => c ≠ '-') := by
  rw [List.filter_append]
  simp

/-- The invariant of the aligned strings built by the traceback from
position (row, col): equal lengths, never a gap marker on both sides of
one position, and each side's gap-stripped content a contiguous slice of
its sequence ending at the current coordinate. -/
def TBInv (q r : List Char) (row col : Nat) (res : List Char × List Char) : Prop :=
  res.1.length = res.2.length ∧
  (∀ k : Nat, k < res.1.length →
    ¬(res.1.getD k 'A' = '-' ∧ res.2.getD k 'A' = '-')) ∧
  (∃ s, s ≤ row ∧ res.1.filter (fun c => c ≠ '-') = (q.take row).drop s) ∧
  (∃ t, t ≤ col ∧ res.2.filter (fun c => c ≠ '-') = (r.take col).drop t)

/-- The empty alignment satisfies the invariant at any position. -/
theorem TBInv_nil (q r : List Char) (row col : Nat) :
    TBInv q r row col ([], []) := by
  refine ⟨rfl, ?_, ⟨row, le_refl _, ?_⟩, ⟨col, le_refl _, ?_⟩⟩
  · intro k hk
    simp at hk
  · rw [List.filter_nil, drop_take_self]
  · rw [List.filter_nil, drop_take_self]

/-- Extending a slice of the take by the next element. -/
theorem take_drop_extend (q : List Char) (r0 s : Nat) (hs : s ≤ r0)
    (hlen : r0 < q.length) :
    (q.take r0).drop s ++ [q.getD r0 'A'] = (q.take (r0 + 1)).drop s := by
  rw [show q.take (r0 + 1) = q.take r0 ++ [q.getD r0 'A'] from
      (take_append_getD q r0 hlen 'A').symm,
    List.drop_append_of_le_length (by rw [List.length_take, min_eq_left (by omega)]; exact hs)]

/-- Length part shared by all three step combinators. -/
theorem TBInv_append_parts (p1 p2 : List Char) (x y : Char)
    (hlen : p1.length = p2.length)
    (hxy : ¬(x = '-' ∧ y = '-'))
    (hk : ∀ k : Nat, k < p1.length →
      ¬(p1.getD k 'A' = '-' ∧ p2.getD k 'A' = '-')) :
    (p1 ++ [x]).length = (p2 ++ [y]).length ∧
    ∀ k : Nat, k < (p1 ++ [x]).length →
      ¬((p1 ++ [x]).getD k 'A' = '-' ∧ (p2 ++ [y]).getD k 'A' = '-') := by
  constructor
  · rw [List.length_append, List.length_append, hlen]
    rfl
  · intro k hkk
    rw [List.length_append] at hkk
    by_cases hlt : k < p1.length
    · rw [List.getD_append _ _ _ _ hlt, List.getD_append _ _ _ _ (by omega)]
      exact hk k hlt
    · have hkeq : k = p1.length := by simp at hkk; omega
      rw [List.getD_append_right _ _ _ _ (by omega),
        List.getD_append_right _ _ _ _ (by omega),
        show k - p1.length = 0 by omega, show k - p2.length = 0 by omega,
        List.getD_cons_zero, List.getD_cons_zero]
      exact hxy

/-- Diagonal step: both sides consume their next symbol. -/
theorem TBInv_step_diag (q r : List Char) (hq : '-' ∉ q) (hr : '-' ∉ r)
    (r0 c0 : Nat) (hrow : r0 + 1 ≤ q.length) (hcol : c0 + 1 ≤ r.length)
    (p1 p2 : List Char) (hinv : TBInv q r r0 c0 (p1, p2)) :
    TBInv q r (r0 + 1) (c0 + 1) (p1 ++ [q.getD r0 'A'], p2 ++ [r.getD c0 'A']) := by
  obtain ⟨hlen, hk, ⟨s, hs, hfq⟩, ⟨t, ht, hfr⟩⟩ := hinv
  have hqc : q.getD r0 'A' ≠ '-' :=
    fun hc => hq (hc ▸ getD_mem_of_lt q 'A' r0 (by omega))
  have hrc : r.getD c0 'A' ≠ '-' :=
    fun hc => hr (hc ▸ getD_mem_of_lt r 'A' c0 (by omega))
  obtain ⟨hL, hK⟩ := TBInv_append_parts p1 p2 _ _ hlen (fun hc => hqc hc.1) hk
  refine ⟨hL, hK, ⟨s, by omega, ?_⟩, ⟨t, by omega, ?_⟩⟩
  · rw [filter_append_keep _ _ hqc, hfq, take_drop_extend q r0 s hs (by omega)]
  · rw [filter_append_keep _ _ hrc, hfr, take_drop_extend r c0 t ht (by omega)]

/-- Up step: the query consumes a symbol, the reference takes a gap. -/
theorem TBInv_step_up (q r : List Char) (hq : '-' ∉ q) (hr : '-' ∉ r)
    (r0 c0 : Nat) (hrow : r0 + 1 ≤ q.length) (hcol : c0 + 1 ≤ r.length)
    (p1 p2 : List Char) (hinv : TBInv q r r0 (c0 + 1) (p1, p2)) :
    TBInv q r (r0 + 1) (c0 + 1) (p1 ++ [q.getD r0 'A'], p2 ++ ['-']) := by
  obtain ⟨hlen, hk, ⟨s, hs, hfq⟩, ⟨t, ht, hfr⟩⟩ := hinv
  have hqc : q.getD r0 'A' ≠ '-' :=
    fun hc => hq (hc ▸ getD_mem_of_lt q 'A' r0 (by omega))
  obtain ⟨hL, hK⟩ := TBInv_append_parts p1 p2 _ _ hlen (fun hc => hqc hc.1) hk
  refine ⟨hL, hK, ⟨s, by omega, ?_⟩, ⟨t, ht, ?_⟩⟩
  · rw [filter_append_keep _ _ hqc, hfq, take_drop_extend q r0 s hs (by omega)]
  · rw [filter_append_gap, hfr]

/-- Left step: the query takes a gap, the reference consumes a symbol. -/
theorem TBInv_step_left (q r : List Char) (hq : '-' ∉ q) (hr : '-' ∉ r)
    (r0 c0 : Nat) (hrow : r0 + 1 ≤ q.length) (hcol : c0 + 1 ≤ r.length)
    (p1 p2 : List Char) (hinv : TBInv q r (r0 + 1) c0 (p1, p2)) :
    TBInv q r (r0 + 1) (c0 + 1) (p1 ++ ['-'], p2 ++ [r.getD c0 'A']) := by
  obtain ⟨hlen, hk, ⟨s, hs, hfq⟩, ⟨t, ht, hfr⟩⟩ := hinv
  have hrc : r.getD c0 'A' ≠ '-' :=
    fun hc => hr (hc ▸ getD_mem_of_lt r 'A' c0 (by omega))
  obtain ⟨hL, hK⟩ := TBInv_append_parts p1 p2 _ _ hlen (fun hc => hrc hc.2) hk
  refine ⟨hL, hK, ⟨s, hs, ?_⟩, ⟨t, by omega, ?_⟩⟩
  · rw [filter_append_gap, hfq]
  · rw [filter_append_keep _ _ hrc, hfr, take_drop_extend r c0 t ht (by omega)]

/-- The traceback's output satisfies the invariant from any in-range
starting position. -/
theorem tracebackGo_inv (M : Nat → Nat → Int) (q r : List Char)
    (hq : '-' ∉ q) (hr : '-' ∉ r) :
    ∀ f row col : Nat, row ≤ q.length → col ≤ r.length →
      TBInv q r row col (tracebackGo M q r f row col) := by
  intro f
  induction f with
  | zero =>
    intro row col _ _
    exact TBInv_nil q r row col
  | succ f ih =>
    intro row col hrow hcol
    match row, col with
    | 0, col => exact TBInv_nil q r 0 col
    | r0 + 1, 0 => exact TBInv_nil q r (r0 + 1) 0
    | r0 + 1, c0 + 1 =>
      by_cases hpos : M (r0 + 1) (c0 + 1) > 0
      · by_cases hd : M (r0 + 1) (c0 + 1) = M r0 c0 + matchAt q r r0 c0
        · rw [tracebackGo_diag M q r f r0 c0 hpos hd]
          exact TBInv_step_diag q r hq hr r0 c0 hrow hcol _ _
            (ih r0 c0 (by omega) (by omega))
        · by_cases hu : M (r0 + 1) (c0 + 1) = M r0 (c0 + 1) + GapPenalty
          · rw [tracebackGo_up M q r f r0 c0 hpos hd hu]
            exact TBInv_step_up q r hq hr r0 c0 hrow hcol _ _
              (ih r0 (c0 + 1) (by omega) hcol)
          · by_cases hl : M (r0 + 1) (c0 + 1) = M (r0 + 1) c0 + GapPenalty
            · rw [tracebackGo_left M q r f r0 c0 hpos hd hu hl]
              exact TBInv_step_left q r hq hr r0 c0 hrow hcol _ _
                (ih (r0 + 1) c0 hrow (by omega))
            · rw [tracebackGo_break M q r f r0 c0 hpos hd hu hl]
              exact TBInv_nil q r _ _
      · rw [tracebackGo_stop M q r (f + 1) _ _ (Or.inr (Or.inr hpos))]
        exact TBInv_nil q r _ _

/-- Splitting a list around a slice of one of its takes. -/
theorem take_split_three {α : Type} (q : List α) (row s : Nat) (hs : s ≤ row) :
    q = q.take s ++ (q.take row).drop s ++ q.drop row := by
  have h1 : q.take row = q.take s ++ (q.take row).drop s := by
    conv_lhs => rw [← List.take_append_drop s (q.take row)]
    rw [List.take_take, min_eq_left hs]
  conv_lhs => rw [← List.take_append_drop row q, h1]

/-- C4 (refutation as universally stated): when the input sequences may
themselves contain the gap marker, the aligner can emit it on both sides
of one position — aligning "-" against "-" scores it as a match and
returns aligned strings that are both "-". -/
theorem claim_C4_counterexample :
    (SmithWaterman ['-'] ['-']).AlignedQuery = ['-'] ∧
    (SmithWaterman ['-'] ['-']).AlignedRef = ['-'] ∧
    (SmithWaterman ['-'] ['-']).AlignedQuery.getD 0 'A' = '-' ∧
    (SmithWaterman ['-'] ['-']).AlignedRef.getD 0 'A' = '-' := by decide

/-- C4 (amended): for sequences free of the gap marker, the aligned
strings have equal length, no position carries the gap marker on both
sides, and stripping the gap markers from each side yields a contiguous
substring of the corresponding input sequence. -/
theorem claim_C4_amended (q r : List Char) (hq : '-' ∉ q) (hr : '-' ∉ r) :
    (SmithWaterman q r).AlignedQuery.length = (SmithWaterman q r).AlignedRef.length ∧
    (∀ k : Nat, k < (SmithWaterman q r).AlignedQuery.length →
      ¬((SmithWaterman q r).AlignedQuery.getD k 'A' = '-' ∧
        (SmithWaterman q r).AlignedRef.getD k 'A' = '-')) ∧
    (∃ u v, q = u ++ (SmithWaterman q r).AlignedQuery.filter (fun c => c ≠ '-') ++ v) ∧
    (∃ u v, r = u ++ (SmithWaterman q r).AlignedRef.filter (fun c => c ≠ '-') ++ v) := by
  have hres : TBInv q r (fillScan q r).maxRow (fillScan q r).maxCol
      (tracebackGo (cell q r) q r ((fillScan q r).maxRow + (fillScan q r).maxCol)
        (fillScan q r).maxRow (fillScan q r).maxCol) :=
    tracebackGo_inv (cell q r) q r hq hr _ _ _
      (fillScan_bounds q r).1 (fillScan_bounds q r).2
  have hAQ : (SmithWaterman q r).AlignedQuery =
      (tracebackGo (cell q r) q r ((fillScan q r).maxRow + (fillScan q r).maxCol)
        (fillScan q r).maxRow (fillScan q r).maxCol).1 := rfl
  have hAR : (SmithWaterman q r).AlignedRef =
      (tracebackGo (cell q r) q r ((fillScan q r).maxRow + (fillScan q r).maxCol)
        (fillScan q r).maxRow (fillScan q r).maxCol).2 := rfl
  obtain ⟨hlen, hk, ⟨s, hs, hfq⟩, ⟨t, ht, hfr⟩⟩ := hres
  rw [hAQ, hAR]
  refine ⟨hlen, hk,
    ⟨q.take s, q.drop (fillScan q r).maxRow, ?_⟩,
    ⟨r.take t, r.drop (fillScan q r).maxCol, ?_⟩⟩
  · rw [hfq]
    exact take_split_three q (fillScan q r).maxRow s hs
  · rw [hfr]
    exact take_split_three r (fillScan q r).maxCol t ht

/-- C4 witness: at query "A", reference "A", the gap-stripped aligned
query is a contiguous substring of the query. -/
theorem claim_C4_witness :
    ('-' ∉ (['A'] : List Char)) ∧
    (∃ u v, (['A'] : List Char) =
      u ++ (SmithWaterman ['A'] ['A']).AlignedQuery.filter (fun c => c ≠ '-') ++ v) :=
  ⟨by decide, (claim_C4_amended ['A'] ['A'] (by decide) (by decide)).2.2.1⟩

end Align
